import Mathlib

/-!
Verification of the Intent Classification & Response Resolution core of the
Mobilis chatbot repository.

The embedding translates:
* `shared/schema.ts`   — `ServiceIntent`, the `botResponses` row shape;
* `src/storage.ts`     — `MemStorage` (the bot-response map, in insertion order),
  `getAllBotResponses`, `getBotResponseByIntent`, `initializeDefaultResponses`,
  and the route-level helpers `analyzeIntent` / `generateBotResponse`;
* `src/chatbot.ts`     — `MobilisChatBot.analyzeIntent` with its fixed
  `predefinedIntents` table.

JavaScript strings are modelled as Lean `String` (a list of characters);
`toLowerCase` is modelled character-wise (ASCII-accurate, identity on Arabic),
`trim` strips leading/trailing whitespace, `includes` is contiguous-sublist
containment, and `.length` is the character count (it agrees with JS UTF-16
length on all BMP text appearing in this repository).  The floating-point
confidence `keyword.length / text.length` is modelled in `ℚ`; the single
division-by-zero case JS can reach (`0 / 0 = NaN`, for an empty keyword on an
empty message) is observationally identical to `ℚ`'s `0 / 0 = 0`, because both
fail the strict `confidence > best.confidence` test against the initial best
of `0`.
-/

/-- Character count of a string (JS `.length` on the BMP text of this repo). -/
def strLen (s : String) : ℕ := s.data.length

/-- JS `String.prototype.toLowerCase`, modelled character-wise. -/
def jsToLower (s : String) : String := ⟨s.data.map Char.toLower⟩

/-- JS `String.prototype.trim`: drop leading and trailing whitespace. -/
def jsTrim (s : String) : String :=
  ⟨((s.data.dropWhile Char.isWhitespace).reverse.dropWhile Char.isWhitespace).reverse⟩

/-- JS `String.prototype.includes`: contiguous substring containment. -/
def jsIncludes (s sub : String) : Bool := decide (sub.data <:+: s.data)

/-- `ServiceIntent` from `shared/schema.ts` (the resolver output). The
`category` union type is modelled as a plain string, as `analyzeIntent`
in `storage.ts` writes `response.category as any` into it. -/
structure ServiceIntent where
  intent : String
  confidence : ℚ
  category : String
deriving DecidableEq

/-- A `bot_responses` row (`shared/schema.ts`), dropping the generated
`id`/`createdAt` columns that play no role in classification. -/
structure BotResponse where
  intent : String
  keywords : List String
  responseAr : String
  responseFr : String
  category : String
  isActive : Bool
deriving DecidableEq

/-- The `'ar' | 'fr'` language union. -/
inductive Lang where
  | ar : Lang
  | fr : Lang
deriving DecidableEq

/-- `MemStorage` restricted to the field classification reads: the
`botResponses` map, kept in insertion order (JS `Map` iteration order). -/
structure MemStorage where
  botResponses : List BotResponse
deriving DecidableEq

/-- `MemStorage.getAllBotResponses`: `Array.from(this.botResponses.values()).filter(r => r.isActive)`.
A read-only operation; the storage component of the result is the state it
leaves behind. -/
def MemStorage.getAllBotResponses (st : MemStorage) : List BotResponse × MemStorage :=
  (st.botResponses.filter (fun r => r.isActive), st)

/-- `MemStorage.getBotResponseByIntent`: first response (in insertion order)
whose `intent` matches and which is active. -/
def MemStorage.getBotResponseByIntent (st : MemStorage) (intent : String) :
    Option BotResponse × MemStorage :=
  (st.botResponses.find? (fun r => r.intent == intent && r.isActive), st)

/-- The confidence formula of `analyzeIntent`: `keyword.length / text.length`,
with the original (non-normalized) message length as denominator.  The
rational quotient is written `mkRat` — equal to `(strLen kw : ℚ) / (strLen text : ℚ)`
by `kwConfidence_eq_div` below — because `Rat.div` is irreducible to the
kernel and the development evaluates the classifier on concrete inputs. -/
def kwConfidence (text kw : String) : ℚ := mkRat (strLen kw) (strLen text)

/-- The match test of the route-level `analyzeIntent` (`storage.ts`):
`normalizedText.includes(keyword.toLowerCase())` with
`normalizedText = text.toLowerCase()` (no trim). -/
def kwMatches (text kw : String) : Bool := jsIncludes (jsToLower text) (jsToLower kw)

/-- Body of the inner keyword loop of `analyzeIntent`: replace the running
best only when the new confidence strictly exceeds it. -/
def keywordStep (text : String) (e : BotResponse) (best : ServiceIntent) (kw : String) :
    ServiceIntent :=
  if kwMatches text kw = true then
    if best.confidence < kwConfidence text kw then
      ⟨e.intent, kwConfidence text kw, e.category⟩
    else best
  else best

/-- Body of the outer entry loop of `analyzeIntent`. -/
def entryStep (text : String) (best : ServiceIntent) (e : BotResponse) : ServiceIntent :=
  e.keywords.foldl (keywordStep text e) best

/-- The keyword scan of `analyzeIntent` over an already-fetched response list,
starting from the `unknown` best match. -/
def analyzeIntentCore (text : String) (responses : List BotResponse) : ServiceIntent :=
  responses.foldl (entryStep text) ⟨"unknown", 0, "general"⟩

/-- Route-level `analyzeIntent` (`storage.ts`, helper section): fetch the
active responses from storage, scan them, and return the best match together
with the storage state left by the fetch. -/
def analyzeIntent (text : String) (st : MemStorage) : ServiceIntent × MemStorage :=
  (analyzeIntentCore text st.getAllBotResponses.1, st.getAllBotResponses.2)

/-- The spec's `classify(message, catalog)`: run `analyzeIntent` against a
storage holding the given catalog. -/
def classify (message : String) (catalog : List BotResponse) : ServiceIntent :=
  (analyzeIntent message ⟨catalog⟩).1

/-- The fixed localized fallback of `generateBotResponse` (`storage.ts`). -/
def unknownMessage : Lang → String
  | Lang.ar => "عذراً، لم أفهم استفساركم. يمكنكم التواصل مع خدمة العملاء على 600"
  | Lang.fr => "Désolé, je n\x27ai pas compris votre demande. Vous pouvez contacter le service client au 600"

/-- Select the reply text of a response row for a language. -/
def localizedReply : Lang → BotResponse → String
  | Lang.ar, r => r.responseAr
  | Lang.fr, r => r.responseFr

/-- Route-level `generateBotResponse` (`storage.ts`, helper section): below
the hard-coded `0.1` threshold return the fixed unknown message; otherwise
look the intent up in storage, returning `none` (JS `null`) when absent. -/
def generateBotResponse (intent : ServiceIntent) (language : Lang) (st : MemStorage) :
    Option String × MemStorage :=
  if intent.confidence < mkRat 1 10 then
    (some (unknownMessage language), st)
  else
    (Option.map (localizedReply language) (st.getBotResponseByIntent intent.intent).1,
     (st.getBotResponseByIntent intent.intent).2)

/-- The spec's `resolveReply(intent, language, catalog)`: run
`generateBotResponse` against a storage holding the given catalog. -/
def resolveReply (intent : ServiceIntent) (language : Lang) (catalog : List BotResponse) :
    Option String :=
  (generateBotResponse intent language ⟨catalog⟩).1

/-- French balance reply of the default catalog(`initializeDefaultResponses`). -/
def balanceFr : String :=
  "Vous pouvez consulter votre solde en composant *555# ou via l\x27application Mobilis"

/-- The default catalog installed by `MemStorage.initializeDefaultResponses`,
in insertion order. -/
def defaultResponses : List BotResponse :=
  [ { intent := "balance_inquiry"
    , keywords := ["رصيد", "balance", "solde", "credit"]
    , responseAr := "يمكنكم الاستعلام عن رصيدكم عبر الاتصال بـ *555# أو عبر تطبيق موبليس"
    , responseFr := balanceFr
    , category := "balance"
    , isActive := true }
  , { intent := "recharge"
    , keywords := ["شحن", "recharge", "rechargement", "credit"]
    , responseAr := "يمكنكم شحن رصيدكم عبر بطاقات الشحن أو عبر التطبيق المصرفي"
    , responseFr := "Vous pouvez recharger via les cartes de recharge ou l\x27application bancaire"
    , category := "recharge"
    , isActive := true }
  , { intent := "plans"
    , keywords := ["باقة", "باقات", "forfait", "plans", "abonnement"]
    , responseAr := "لدينا باقات متنوعة للمكالمات والإنترنت. اتصل بـ 600 للمزيد من التفاصيل"
    , responseFr := "Nous avons diverses offres d\x27appels et internet. Appelez le 600 pour plus de détails"
    , category := "plans"
    , isActive := true }
  , { intent := "support"
    , keywords := ["مساعدة", "دعم", "aide", "support", "problème", "مشكلة"]
    , responseAr := "فريق الدعم الفني متاح على 600 من 8:00 إلى 20:00"
    , responseFr := "Le support technique est disponible au 600 de 8h00 à 20h00"
    , category := "support"
    , isActive := true }
  , { intent := "greeting"
    , keywords := ["مرحبا", "أهلا", "السلام", "bonjour", "salut", "hello"]
    , responseAr := "مرحباً بكم في خدمة عملاء موبليس! كيف يمكنني مساعدتكم؟"
    , responseFr := "Bienvenue chez Mobilis! Comment puis-je vous aider?"
    , category := "general"
    , isActive := true }
  ]

/-- The fixed `predefinedIntents` table of `MobilisChatBot` (`chatbot.ts`),
as (intent-name, keywords, category) triples in declaration order. -/
def predefinedIntents : List (String × List String × String) :=
  [ ("balance", (["رصيد", "balance", "solde", "credit", "استعلام"], "balance"))
  , ("recharge", (["شحن", "recharge", "rechargement", "credit", "top-up"], "recharge"))
  , ("plans", (["باقة", "باقات", "forfait", "plans", "abonnement", "subscription"], "plans"))
  , ("support", (["مساعدة", "دعم", "aide", "support", "problème", "مشكلة", "help"], "support"))
  , ("greeting", (["مرحبا", "أهلا", "السلام", "bonjour", "salut", "hello", "hi"], "general"))
  ]

/-- `MobilisChatBot.analyzeIntent` (`chatbot.ts`): same scan over the fixed
table, but the message is lower-cased AND trimmed before matching; the
confidence denominator is still the original message length. -/
def MobilisChatBot.analyzeIntent (message : String) : ServiceIntent :=
  predefinedIntents.foldl
    (fun best p =>
      p.2.1.foldl
        (fun best kw =>
          if jsIncludes (jsTrim (jsToLower message)) (jsToLower kw) = true then
            if best.confidence < kwConfidence message kw then
              ⟨p.1, kwConfidence message kw, p.2.2⟩
            else best
          else best)
        best)
    ⟨"unknown", 0, "general"⟩

/-- Specification-side definition, following the spec's algorithm for
`classify` word for word: step 1 normalizes the message by lower-casing AND
trimming before the substring test (the denominator stays the original
length).  Used to compare the spec's description with the code. -/
def classifySpecTrimmed (message : String) (catalog : List BotResponse) : ServiceIntent :=
  (catalog.filter (fun r => r.isActive)).foldl
    (fun best e =>
      e.keywords.foldl
        (fun best kw =>
          if jsIncludes (jsTrim (jsToLower message)) (jsToLower kw) = true then
            if best.confidence < kwConfidence message kw then
              ⟨e.intent, kwConfidence message kw, e.category⟩
            else best
          else best)
        best)
    ⟨"unknown", 0, "general"⟩

/-- Specification-side definition with step 1 weakened to lower-casing only
(no trim) — the amended reading of the spec's normalization step. -/
def classifySpecLowerOnly (message : String) (catalog : List BotResponse) : ServiceIntent :=
  (catalog.filter (fun r => r.isActive)).foldl
    (fun best e =>
      e.keywords.foldl
        (fun best kw =>
          if jsIncludes (jsToLower message) (jsToLower kw) = true then
            if best.confidence < kwConfidence message kw then
              ⟨e.intent, kwConfidence message kw, e.category⟩
            else best
          else best)
        best)
    ⟨"unknown", 0, "general"⟩

/-- Confidences of the keywords of one entry that match the message. -/
def matchedKwConfs (text : String) (kws : List String) : List ℚ :=
  (kws.filter (fun kw => kwMatches text kw)).map (fun kw => kwConfidence text kw)

/-- Confidences of all matching keywords across a response list. -/
def matchedConfs (text : String) (entries : List BotResponse) : List ℚ :=
  entries.flatMap (fun e => matchedKwConfs text e.keywords)

/-- Best matching confidence within a single entry (`0` when nothing matches). -/
def entryBestConf (text : String) (e : BotResponse) : ℚ :=
  (matchedKwConfs text e.keywords).foldl max 0

/-- Maximum matching confidence over the active entries of a catalog. -/
def maxMatchedConf (text : String) (catalog : List BotResponse) : ℚ :=
  (matchedConfs text (catalog.filter (fun r => r.isActive))).foldl max 0

/-- Catalog entry whose sole keyword is the empty string (matches any
message with confidence `0`). -/
def emptyKwEntry : BotResponse :=
  ⟨"empty_kw", [""], "ra", "rf", "general", true⟩

/-- Catalog entry whose keyword carries a leading space. -/
def wsEntry : BotResponse :=
  ⟨"ws_intent", [" solde"], "ra", "rf", "balance", true⟩

/-- Catalog entry whose intent id is literally `"unknown"`. -/
def unknownNamedEntry : BotResponse :=
  ⟨"unknown", ["hi"], "ra", "rf", "balance", true⟩

/-- First of two tied catalog entries. -/
def tieFirstEntry : BotResponse :=
  ⟨"first_intent", ["ab"], "a1", "f1", "balance", true⟩

/-- Second of two tied catalog entries. -/
def tieSecondEntry : BotResponse :=
  ⟨"second_intent", ["ab"], "a2", "f2", "plans", true⟩

/-!  Generic facts about folding `max` over a list of rationals. -/

theorem qmax_init_le (l : List ℚ) (a : ℚ) : a ≤ l.foldl max a := by
  induction l generalizing a with
  | nil => exact le_refl a
  | cons b t ih => exact le_trans (le_max_left a b) (ih (max a b))

theorem qmax_le_of_mem (l : List ℚ) (a x : ℚ) (hx : x ∈ l) : x ≤ l.foldl max a := by
  induction l generalizing a with
  | nil => cases hx
  | cons b t ih =>
    rcases List.mem_cons.mp hx with h | h
    · subst h
      exact le_trans (le_max_right a x) (qmax_init_le t (max a x))
    · exact ih (max a b) h

theorem qmax_eq_or_mem (l : List ℚ) (a : ℚ) : l.foldl max a = a ∨ l.foldl max a ∈ l := by
  induction l generalizing a with
  | nil => exact Or.inl rfl
  | cons b t ih =>
    rcases ih (max a b) with h | h
    · rcases le_total b a with hba | hab
      · left
        rw [List.foldl_cons, h, max_eq_left hba]
      · right
        rw [List.foldl_cons, h, max_eq_right hab]
        exact List.mem_cons_self b t
    · exact Or.inr (List.mem_cons_of_mem b h)

theorem qmax_lt (l : List ℚ) (a c : ℚ) (ha : a < c) (h : ∀ x ∈ l, x < c) :
    l.foldl max a < c := by
  induction l generalizing a with
  | nil => exact ha
  | cons b t ih =>
    exact ih (max a b) (max_lt ha (h b (List.mem_cons_self b t)))
      (fun x hx => h x (List.mem_cons_of_mem b hx))

theorem qmax_le (l : List ℚ) (a c : ℚ) (ha : a ≤ c) (h : ∀ x ∈ l, x ≤ c) :
    l.foldl max a ≤ c := by
  induction l generalizing a with
  | nil => exact ha
  | cons b t ih =>
    exact ih (max a b) (max_le ha (h b (List.mem_cons_self b t)))
      (fun x hx => h x (List.mem_cons_of_mem b hx))

/-!  Small facts about the string model. -/

theorem length_le_of_contained {l₁ l₂ : List Char} (h : l₁ <:+: l₂) :
    l₁.length ≤ l₂.length := by
  obtain ⟨s, t, rfl⟩ := h
  simp [List.length_append]
  omega

theorem strLen_jsToLower (s : String) : strLen (jsToLower s) = strLen s := by
  simp [strLen, jsToLower]

theorem strLen_pos_of_ne_empty (s : String) (h : s ≠ "") : 0 < strLen s := by
  rcases s with ⟨l⟩
  cases l with
  | nil => exact absurd rfl h
  | cons c t => simp [strLen]

theorem kwMatches_length_le (text kw : String) (h : kwMatches text kw = true) :
    strLen kw ≤ strLen text := by
  have hinf : (jsToLower kw).data <:+: (jsToLower text).data := of_decide_eq_true h
  have hle : strLen (jsToLower kw) ≤ strLen (jsToLower text) := length_le_of_contained hinf
  rw [strLen_jsToLower, strLen_jsToLower] at hle
  exact hle

theorem kwConfidence_eq_div (text kw : String) :
    kwConfidence text kw = (strLen kw : ℚ) / (strLen text : ℚ) := by
  rw [kwConfidence, Rat.mkRat_eq_div]
  norm_num

theorem kwConfidence_nonneg (text kw : String) : 0 ≤ kwConfidence text kw := by
  rw [kwConfidence_eq_div]
  positivity

theorem kwConfidence_le_one (text kw : String) (h : kwMatches text kw = true) :
    kwConfidence text kw ≤ 1 := by
  have hlen := kwMatches_length_le text kw h
  rw [kwConfidence_eq_div]
  rcases Nat.eq_zero_or_pos (strLen text) with h0 | hpos
  · have hk : strLen kw = 0 := Nat.le_antisymm (h0 ▸ hlen) (Nat.zero_le _)
    simp [h0, hk]
  · rw [div_le_one (by exact_mod_cast hpos)]
    exact_mod_cast hlen

theorem kwConfidence_pos (text kw : String) (htext : text ≠ "") (hkw : kw ≠ "") :
    0 < kwConfidence text kw := by
  rw [kwConfidence_eq_div]
  have h1 : (0 : ℚ) < strLen kw := by exact_mod_cast strLen_pos_of_ne_empty kw hkw
  have h2 : (0 : ℚ) < strLen text := by exact_mod_cast strLen_pos_of_ne_empty text htext
  positivity

theorem kwConfidence_empty_kw (text : String) : kwConfidence text "" = 0 := by
  have h : strLen "" = 0 := rfl
  rw [kwConfidence_eq_div]
  simp [h]

/-!  Structure of the keyword scan. -/

theorem matchedKwConfs_cons_pos (text kw : String) (rest : List String)
    (h : kwMatches text kw = true) :
    matchedKwConfs text (kw :: rest) = kwConfidence text kw :: matchedKwConfs text rest := by
  simp [matchedKwConfs, List.filter_cons, h]

theorem matchedKwConfs_cons_neg (text kw : String) (rest : List String)
    (h : kwMatches text kw = false) :
    matchedKwConfs text (kw :: rest) = matchedKwConfs text rest := by
  simp [matchedKwConfs, List.filter_cons, h]

theorem matchedConfs_cons (text : String) (e : BotResponse) (rest : List BotResponse) :
    matchedConfs text (e :: rest) = matchedKwConfs text e.keywords ++ matchedConfs text rest := by
  simp [matchedConfs]

theorem keywordStep_confidence (text : String) (e : BotResponse) (best : ServiceIntent)
    (kw : String) (h : kwMatches text kw = true) :
    (keywordStep text e best kw).confidence = max best.confidence (kwConfidence text kw) := by
  unfold keywordStep
  rw [if_pos h]
  by_cases hlt : best.confidence < kwConfidence text kw
  · rw [if_pos hlt, max_eq_right (le_of_lt hlt)]
  · rw [if_neg hlt, max_eq_left (not_lt.mp hlt)]

theorem keywordStep_mono (text : String) (e : BotResponse) (best : ServiceIntent)
    (kw : String) : best.confidence ≤ (keywordStep text e best kw).confidence := by
  unfold keywordStep
  cases h : kwMatches text kw with
  | false => simp
  | true =>
    by_cases hlt : best.confidence < kwConfidence text kw
    · simp [hlt, le_of_lt hlt]
    · simp [hlt]

theorem kwfold_confidence (text : String) (e : BotResponse) (kws : List String)
    (best : ServiceIntent) :
    (kws.foldl (keywordStep text e) best).confidence =
      (matchedKwConfs text kws).foldl max best.confidence := by
  induction kws generalizing best with
  | nil => rfl
  | cons kw rest ih =>
    cases h : kwMatches text kw with
    | false =>
      have hstep : keywordStep text e best kw = best := by simp [keywordStep, h]
      rw [List.foldl_cons, hstep, matchedKwConfs_cons_neg text kw rest h, ih]
    | true =>
      rw [List.foldl_cons, matchedKwConfs_cons_pos text kw rest h, List.foldl_cons, ih,
        keywordStep_confidence text e best kw h]

theorem kwfold_no_improvement (text : String) (e : BotResponse) (kws : List String)
    (best : ServiceIntent)
    (h : ∀ x ∈ matchedKwConfs text kws, x ≤ best.confidence) :
    kws.foldl (keywordStep text e) best = best := by
  induction kws with
  | nil => rfl
  | cons kw rest ih =>
    cases hm : kwMatches text kw with
    | false =>
      have hstep : keywordStep text e best kw = best := by simp [keywordStep, hm]
      rw [List.foldl_cons, hstep]
      exact ih (fun x hx => h x (by rw [matchedKwConfs_cons_neg text kw rest hm]; exact hx))
    | true =>
      have hc : kwConfidence text kw ≤ best.confidence := by
        apply h
        rw [matchedKwConfs_cons_pos text kw rest hm]
        exact List.mem_cons_self _ _
      have hstep : keywordStep text e best kw = best := by
        simp [keywordStep, hm, not_lt.mpr hc]
      rw [List.foldl_cons, hstep]
      exact ih (fun x hx => h x (by
        rw [matchedKwConfs_cons_pos text kw rest hm]
        exact List.mem_cons_of_mem _ hx))

theorem kwfold_invariant (text : String) (e : BotResponse) (kws : List String)
    (best : ServiceIntent) :
    kws.foldl (keywordStep text e) best = best ∨
      ∃ kw, kw ∈ kws ∧ kwMatches text kw = true ∧
        kws.foldl (keywordStep text e) best =
          ⟨e.intent, kwConfidence text kw, e.category⟩ ∧
        best.confidence < kwConfidence text kw := by
  induction kws generalizing best with
  | nil => exact Or.inl rfl
  | cons kw rest ih =>
    rw [List.foldl_cons]
    rcases ih (keywordStep text e best kw) with h | ⟨kw', hmem, hm', heq, hlt'⟩
    · rw [h]
      cases hm : kwMatches text kw with
      | false =>
        left
        simp [keywordStep, hm]
      | true =>
        by_cases hlt : best.confidence < kwConfidence text kw
        · right
          exact ⟨kw, List.mem_cons_self _ _, hm, by simp [keywordStep, hm, hlt], hlt⟩
        · left
          simp [keywordStep, hm, hlt]
    · right
      exact ⟨kw', List.mem_cons_of_mem _ hmem, hm', heq,
        lt_of_le_of_lt (keywordStep_mono text e best kw) hlt'⟩

/-!  Structure of the entry scan. -/

theorem entryStep_confidence (text : String) (best : ServiceIntent) (e : BotResponse) :
    (entryStep text best e).confidence =
      (matchedKwConfs text e.keywords).foldl max best.confidence :=
  kwfold_confidence text e e.keywords best

theorem entryStep_mono (text : String) (best : ServiceIntent) (e : BotResponse) :
    best.confidence ≤ (entryStep text best e).confidence := by
  rw [entryStep_confidence]
  exact qmax_init_le _ _

theorem entryfold_confidence (text : String) (entries : List BotResponse)
    (best : ServiceIntent) :
    (entries.foldl (entryStep text) best).confidence =
      (matchedConfs text entries).foldl max best.confidence := by
  induction entries generalizing best with
  | nil => rfl
  | cons e rest ih =>
    rw [List.foldl_cons, ih, entryStep_confidence, matchedConfs_cons, List.foldl_append]

theorem entryfold_no_improvement (text : String) (entries : List BotResponse)
    (best : ServiceIntent)
    (h : ∀ x ∈ matchedConfs text entries, x ≤ best.confidence) :
    entries.foldl (entryStep text) best = best := by
  induction entries with
  | nil => rfl
  | cons e rest ih =>
    have hstep : entryStep text best e = best := by
      apply kwfold_no_improvement
      intro x hx
      exact h x (by rw [matchedConfs_cons]; exact List.mem_append_left _ hx)
    rw [List.foldl_cons, hstep]
    exact ih (fun x hx => h x (by rw [matchedConfs_cons]; exact List.mem_append_right _ hx))

theorem entryfold_invariant (text : String) (entries : List BotResponse)
    (best : ServiceIntent) :
    entries.foldl (entryStep text) best = best ∨
      ∃ e, e ∈ entries ∧ ∃ kw, kw ∈ e.keywords ∧ kwMatches text kw = true ∧
        entries.foldl (entryStep text) best =
          ⟨e.intent, kwConfidence text kw, e.category⟩ ∧
        best.confidence < kwConfidence text kw := by
  induction entries generalizing best with
  | nil => exact Or.inl rfl
  | cons e rest ih =>
    rw [List.foldl_cons]
    rcases ih (entryStep text best e) with h | ⟨e', he', kw, hkw, hm, heq, hlt⟩
    · rw [h]
      rcases kwfold_invariant text e e.keywords best with h2 | ⟨kw, hkw, hm, heq, hlt⟩
      · exact Or.inl h2
      · exact Or.inr ⟨e, List.mem_cons_self _ _, kw, hkw, hm, heq, hlt⟩
    · exact Or.inr ⟨e', List.mem_cons_of_mem _ he', kw, hkw, hm, heq,
        lt_of_le_of_lt (entryStep_mono text best e) hlt⟩

theorem kwfold_first_max (text : String) (e : BotResponse) (c : ℚ) (kws : List String)
    (best : ServiceIntent) (hbest : best.confidence < c)
    (hc : c ∈ matchedKwConfs text kws)
    (hub : ∀ x ∈ matchedKwConfs text kws, x ≤ c) :
    kws.foldl (keywordStep text e) best = ⟨e.intent, c, e.category⟩ := by
  induction kws generalizing best with
  | nil => simp [matchedKwConfs] at hc
  | cons kw rest ih =>
    cases hm : kwMatches text kw with
    | false =>
      have hstep : keywordStep text e best kw = best := by simp [keywordStep, hm]
      rw [List.foldl_cons, hstep]
      rw [matchedKwConfs_cons_neg text kw rest hm] at hc hub
      exact ih best hbest hc hub
    | true =>
      rw [matchedKwConfs_cons_pos text kw rest hm] at hc hub
      by_cases hkc : kwConfidence text kw = c
      · have hlt : best.confidence < kwConfidence text kw := by rw [hkc]; exact hbest
        have hstep : keywordStep text e best kw = ⟨e.intent, c, e.category⟩ := by
          unfold keywordStep
          rw [if_pos hm, if_pos hlt, hkc]
        rw [List.foldl_cons, hstep]
        apply kwfold_no_improvement
        intro x hx
        exact hub x (List.mem_cons_of_mem _ hx)
      · have hrest : c ∈ matchedKwConfs text rest := by
          rcases List.mem_cons.mp hc with h | h
          · exact absurd h.symm hkc
          · exact h
        have hkwlt : kwConfidence text kw < c :=
          lt_of_le_of_ne (hub _ (List.mem_cons_self _ _)) hkc
        rw [List.foldl_cons]
        apply ih
        · by_cases hlt : best.confidence < kwConfidence text kw
          · simpa [keywordStep, hm, hlt] using hkwlt
          · simpa [keywordStep, hm, hlt] using hbest
        · exact hrest
        · exact fun x hx => hub x (List.mem_cons_of_mem _ hx)

theorem classify_eq_core (msg : String) (cat : List BotResponse) :
    classify msg cat = analyzeIntentCore msg (cat.filter (fun r => r.isActive)) := rfl

theorem classify_confidence_eq_max (msg : String) (cat : List BotResponse) :
    (classify msg cat).confidence = maxMatchedConf msg cat := by
  rw [classify_eq_core]
  unfold analyzeIntentCore maxMatchedConf
  exact entryfold_confidence msg _ ⟨"unknown", 0, "general"⟩

/-!  Claim theorems. -/

/-- Claim C1, counterexample: the claim as stated fails on a catalog whose
active entry carries the empty-string keyword.  On the non-empty message
`"a"` that keyword is a substring of the normalized message, yet `classify`
returns confidence `0` — not strictly greater than `0` — and the sentinel
intent `"unknown"` rather than the intent of the entry attaining the
maximum. -/
theorem empty_keyword_counterexample :
    kwMatches "a" "" = true ∧ emptyKwEntry.isActive = true ∧
      "" ∈ emptyKwEntry.keywords ∧ ("a" : String) ≠ "" ∧
      ¬ 0 < (classify "a" [emptyKwEntry]).confidence ∧
      (classify "a" [emptyKwEntry]).intent = "unknown" := by
  decide

/-- Claim C1, amended: for every non-empty message and every catalog in
which at least one NON-EMPTY keyword of an active entry is a substring of
the normalized message, `classify` returns a confidence strictly greater
than `0` that equals the maximum over all matching keywords of keyword
length divided by the original message length, and its intent (and
category) are those of a catalog entry attaining that maximum. -/
theorem classify_max_confidence (msg : String) (cat : List BotResponse)
    (hmsg : msg ≠ "")
    (hmatch : ∃ e, e ∈ cat ∧ e.isActive = true ∧
      ∃ kw, kw ∈ e.keywords ∧ kw ≠ "" ∧ kwMatches msg kw = true) :
    0 < (classify msg cat).confidence ∧
    (classify msg cat).confidence = maxMatchedConf msg cat ∧
    ∃ e, e ∈ cat ∧ e.isActive = true ∧
      ∃ kw, kw ∈ e.keywords ∧ kwMatches msg kw = true ∧
        kwConfidence msg kw = maxMatchedConf msg cat ∧
        (classify msg cat).intent = e.intent ∧
        (classify msg cat).category = e.category := by
  obtain ⟨e0, he0, hact0, kw0, hkw0, hkw0ne, hm0⟩ := hmatch
  have hconf0 : 0 < kwConfidence msg kw0 := kwConfidence_pos msg kw0 hmsg hkw0ne
  have hmem0 : kwConfidence msg kw0 ∈
      matchedConfs msg (cat.filter (fun r => r.isActive)) := by
    simp only [matchedConfs]
    apply List.mem_flatMap.mpr
    refine ⟨e0, List.mem_filter.mpr ⟨he0, by simpa using hact0⟩, ?_⟩
    simp only [matchedKwConfs]
    exact List.mem_map.mpr ⟨kw0, List.mem_filter.mpr ⟨hkw0, by simpa using hm0⟩, rfl⟩
  have hposmax : 0 < maxMatchedConf msg cat :=
    lt_of_lt_of_le hconf0 (qmax_le_of_mem _ 0 _ hmem0)
  have hconf := classify_confidence_eq_max msg cat
  refine ⟨hconf ▸ hposmax, hconf, ?_⟩
  rcases entryfold_invariant msg (cat.filter (fun r => r.isActive))
      ⟨"unknown", 0, "general"⟩ with hdef | ⟨e, hef, kw, hkw, hm, heq, hlt⟩
  · exfalso
    have hzero : (classify msg cat).confidence = 0 := by
      rw [classify_eq_core]
      unfold analyzeIntentCore
      rw [hdef]
    rw [hconf] at hzero
    exact absurd hzero (ne_of_gt hposmax)
  · obtain ⟨hecat, hactb⟩ := List.mem_filter.mp hef
    have hclassify : classify msg cat = ⟨e.intent, kwConfidence msg kw, e.category⟩ := by
      rw [classify_eq_core]
      unfold analyzeIntentCore
      exact heq
    refine ⟨e, hecat, by simpa using hactb, kw, hkw, hm, ?_, ?_, ?_⟩
    · have hx : (classify msg cat).confidence = kwConfidence msg kw := by rw [hclassify]
      rw [hconf] at hx
      exact hx.symm
    · rw [hclassify]
    · rw [hclassify]

/-- Claim C1, witness: the amended theorem applied to the concrete message
`"quel est mon solde"` and the default catalog. -/
theorem classify_max_confidence_witness :
    0 < (classify "quel est mon solde" defaultResponses).confidence ∧
    (classify "quel est mon solde" defaultResponses).confidence =
      maxMatchedConf "quel est mon solde" defaultResponses ∧
    ∃ e, e ∈ defaultResponses ∧ e.isActive = true ∧
      ∃ kw, kw ∈ e.keywords ∧ kwMatches "quel est mon solde" kw = true ∧
        kwConfidence "quel est mon solde" kw =
          maxMatchedConf "quel est mon solde" defaultResponses ∧
        (classify "quel est mon solde" defaultResponses).intent = e.intent ∧
        (classify "quel est mon solde" defaultResponses).category = e.category :=
  classify_max_confidence "quel est mon solde" defaultResponses (by decide) (by decide)

/-- Claim C2: `resolveReply` returns the fixed localized unknown message for
the requested language whenever the intent's confidence is strictly below
the hard-coded `0.1` threshold, regardless of the intent id; for confidence
at least `0.1` (including exactly `0.1`) it instead attempts the catalog
lookup for that intent id.  The two closed conjuncts exercise both sides of
the boundary (`0.1` exactly versus `0.099999`). -/
theorem resolveReply_threshold :
    (∀ (i : ServiceIntent) (lang : Lang) (cat : List BotResponse),
        resolveReply i lang cat =
          if i.confidence < 1/10 then some (unknownMessage lang)
          else Option.map (localizedReply lang)
            (cat.find? (fun r => r.intent == i.intent && r.isActive))) ∧
    resolveReply ⟨"balance_inquiry", 1/10, "balance"⟩ Lang.fr defaultResponses =
      some balanceFr ∧
    resolveReply ⟨"balance_inquiry", 99999/1000000, "balance"⟩ Lang.fr defaultResponses =
      some (unknownMessage Lang.fr) := by
  have hq : (1/10 : ℚ) = mkRat 1 10 := by
    rw [Rat.mkRat_eq_div]
    norm_num
  have hq2 : (99999/1000000 : ℚ) = mkRat 99999 1000000 := by
    rw [Rat.mkRat_eq_div]
    norm_num
  refine ⟨fun i lang cat => ?_, ?_, ?_⟩
  · rw [hq]
    unfold resolveReply generateBotResponse MemStorage.getBotResponseByIntent
    by_cases h : i.confidence < mkRat 1 10
    · rw [if_pos h, if_pos h]
    · rw [if_neg h, if_neg h]
  · rw [hq]
    decide
  · rw [hq2]
    decide

/-- Claim C3: on the empty message `classify` returns exactly the unknown
result, for every catalog, and no error is raised: non-empty keywords cannot
match the empty normalized message, and an empty keyword's `0 / 0`
confidence (JS `NaN`, here `0`) never beats the initial best of `0`. -/
theorem classify_empty_message (cat : List BotResponse) :
    classify "" cat = ⟨"unknown", 0, "general"⟩ := by
  rw [classify_eq_core]
  unfold analyzeIntentCore
  apply entryfold_no_improvement
  intro x hx
  simp only [matchedConfs] at hx
  obtain ⟨e, he, hxe⟩ := List.mem_flatMap.mp hx
  simp only [matchedKwConfs] at hxe
  obtain ⟨kw, hkw, rfl⟩ := List.mem_map.mp hxe
  show kwConfidence "" kw ≤ (⟨"unknown", 0, "general"⟩ : ServiceIntent).confidence
  have h0 : strLen "" = 0 := rfl
  simp [kwConfidence, h0]

/-- Claim C4: iteration is in catalog order and the running best is replaced
only on a strict increase, so ties go to the earlier entry.  If active
entries `e1` and `e2` (in this order) both attain the best matching
confidence `c > 0`, while every active entry before `e1` stays strictly
below `c` and every other active entry stays at most `c`, then `classify`
returns `e1`'s intent and category with confidence `c`. -/
theorem classify_tie_first_seen (msg : String) (pre mid post : List BotResponse)
    (e1 e2 : BotResponse) (c : ℚ)
    (h1 : e1.isActive = true) (h2 : e2.isActive = true)
    (hb1 : entryBestConf msg e1 = c) (hb2 : entryBestConf msg e2 = c) (hc : 0 < c)
    (hpre : ∀ e ∈ pre, e.isActive = true → entryBestConf msg e < c)
    (hmid : ∀ e ∈ mid, e.isActive = true → entryBestConf msg e ≤ c)
    (hpost : ∀ e ∈ post, e.isActive = true → entryBestConf msg e ≤ c) :
    classify msg (pre ++ (e1 :: (mid ++ (e2 :: post)))) = ⟨e1.intent, c, e1.category⟩ := by
  rw [classify_eq_core]
  unfold analyzeIntentCore
  have hfilter : (pre ++ (e1 :: (mid ++ (e2 :: post)))).filter (fun r => r.isActive) =
      pre.filter (fun r => r.isActive) ++
        (e1 :: (mid.filter (fun r => r.isActive) ++
          (e2 :: post.filter (fun r => r.isActive)))) := by
    simp [List.filter_append, List.filter_cons, h1, h2]
  rw [hfilter, List.foldl_append, List.foldl_cons]
  have hb0conf : (List.foldl (entryStep msg) ⟨"unknown", 0, "general"⟩
      (pre.filter (fun r => r.isActive))).confidence < c := by
    rw [entryfold_confidence]
    apply qmax_lt _ _ _ hc
    intro x hx
    simp only [matchedConfs] at hx
    obtain ⟨e, he, hxe⟩ := List.mem_flatMap.mp hx
    obtain ⟨hepre, hact⟩ := List.mem_filter.mp he
    exact lt_of_le_of_lt (qmax_le_of_mem _ 0 x hxe) (hpre e hepre (by simpa using hact))
  have hcmem : c ∈ matchedKwConfs msg e1.keywords := by
    rcases qmax_eq_or_mem (matchedKwConfs msg e1.keywords) 0 with h | h
    · exfalso
      rw [entryBestConf] at hb1
      exact absurd (hb1.symm.trans h) (ne_of_gt hc)
    · rw [entryBestConf] at hb1
      rw [hb1] at h
      exact h
  have hub1 : ∀ x ∈ matchedKwConfs msg e1.keywords, x ≤ c := by
    intro x hx
    rw [entryBestConf] at hb1
    exact le_trans (qmax_le_of_mem _ 0 x hx) (le_of_eq hb1)
  have hb1step : entryStep msg (List.foldl (entryStep msg) ⟨"unknown", 0, "general"⟩
      (pre.filter (fun r => r.isActive))) e1 = ⟨e1.intent, c, e1.category⟩ :=
    kwfold_first_max msg e1 c e1.keywords _ hb0conf hcmem hub1
  rw [hb1step]
  apply entryfold_no_improvement
  intro x hx
  simp only [matchedConfs] at hx
  obtain ⟨e, he, hxe⟩ := List.mem_flatMap.mp hx
  have hxle : x ≤ entryBestConf msg e := qmax_le_of_mem _ 0 x hxe
  rcases List.mem_append.mp he with hm | hm
  · obtain ⟨hemid, hact⟩ := List.mem_filter.mp hm
    exact le_trans hxle (hmid e hemid (by simpa using hact))
  · rcases List.mem_cons.mp hm with rfl | hm
    · exact le_trans hxle (le_of_eq hb2)
    · obtain ⟨hepost, hact⟩ := List.mem_filter.mp hm
      exact le_trans hxle (hpost e hepost (by simpa using hact))

/-- Claim C4, witness: two adjacent active entries both matching the whole
message `"ab"` with confidence `1` — the earlier entry wins the tie. -/
theorem classify_tie_first_seen_witness :
    classify "ab" ([] ++ (tieFirstEntry :: ([] ++ (tieSecondEntry :: [])))) =
      ⟨"first_intent", 1, "balance"⟩ :=
  classify_tie_first_seen "ab" [] [] [] tieFirstEntry tieSecondEntry 1
    (by decide) (by decide) (by decide) (by decide) (by decide)
    (by decide) (by decide) (by decide)

/-- Claim C5: when the confidence clears the `0.1` threshold but no catalog
entry carries the requested intent id (e.g. the entry was deleted after
classification), `resolveReply` signals the absence by returning `none`
(JS `null`) instead of a reply string; the route-level caller checks
`if (response)` and generates no bot reply in that case. -/
theorem resolveReply_missing_intent (i : ServiceIntent) (lang : Lang)
    (cat : List BotResponse)
    (hconf : 1/10 ≤ i.confidence)
    (hmiss : ∀ e ∈ cat, e.intent ≠ i.intent) :
    resolveReply i lang cat = none := by
  have hq : (mkRat 1 10 : ℚ) = 1/10 := by
    rw [Rat.mkRat_eq_div]
    norm_num
  have hconf' : ¬ i.confidence < mkRat 1 10 := by
    rw [hq]
    exact not_lt.mpr hconf
  have hnone : cat.find? (fun r => r.intent == i.intent && r.isActive) = none := by
    rw [List.find?_eq_none]
    intro e he
    simp only [Bool.and_eq_true, beq_iff_eq, not_and]
    exact fun h _ => hmiss e he h
  have hr : resolveReply i lang cat =
      Option.map (localizedReply lang)
        (cat.find? (fun r => r.intent == i.intent && r.isActive)) := by
    unfold resolveReply generateBotResponse MemStorage.getBotResponseByIntent
    rw [if_neg hconf']
  rw [hr, hnone]
  rfl

/-- Claim C5, witness: a confident intent whose id appears nowhere in the
default catalog yields no reply. -/
theorem resolveReply_missing_intent_witness :
    resolveReply ⟨"deleted_intent", 1/2, "balance"⟩ Lang.fr defaultResponses = none :=
  resolveReply_missing_intent ⟨"deleted_intent", 1/2, "balance"⟩ Lang.fr defaultResponses
    (by norm_num) (by decide)

/-- Claim C6: for every message and catalog the returned confidence lies in
the closed interval `[0, 1]`; it attains exactly `1` when a matched keyword
is as long as the whole message (closed conjunct). -/
theorem classify_confidence_bounds :
    (∀ (msg : String) (cat : List BotResponse),
        0 ≤ (classify msg cat).confidence ∧ (classify msg cat).confidence ≤ 1) ∧
    classify "solde" defaultResponses = ⟨"balance_inquiry", 1, "balance"⟩ := by
  constructor
  · intro msg cat
    have hconf := classify_confidence_eq_max msg cat
    constructor
    · rw [hconf]
      exact qmax_init_le _ 0
    · rw [hconf]
      unfold maxMatchedConf
      apply qmax_le _ 0 1 zero_le_one
      intro x hx
      simp only [matchedConfs] at hx
      obtain ⟨e, he, hxe⟩ := List.mem_flatMap.mp hx
      simp only [matchedKwConfs] at hxe
      obtain ⟨kw, hkw, rfl⟩ := List.mem_map.mp hxe
      obtain ⟨hkwmem, hmatch⟩ := List.mem_filter.mp hkw
      exact kwConfidence_le_one msg kw (by simpa using hmatch)
  · decide

/-- Claim C7, counterexample: the message `"quel est mon solde"` has length
`18`, not `19` as the claim states, so the returned confidence is not
`5 / 19`. -/
theorem roundtrip_counterexample :
    strLen "quel est mon solde" = 18 ∧ strLen "quel est mon solde" ≠ 19 ∧
      (classify "quel est mon solde" defaultResponses).confidence ≠ 5/19 := by
  have hq : ((5 : ℚ)/19) = mkRat 5 19 := by
    rw [Rat.mkRat_eq_div]
    norm_num
  rw [hq]
  decide

/-- Claim C7, amended: on the default catalog the message
`"quel est mon solde"` (length `18`) matches the keyword `"solde"` (length
`5`), giving intent `balance_inquiry` with confidence `5 / 18`, and
`resolveReply` in French returns the French balance reply. -/
theorem roundtrip_scenario :
    classify "quel est mon solde" defaultResponses =
      ⟨"balance_inquiry", 5/18, "balance"⟩ ∧
    resolveReply ⟨"balance_inquiry", 5/18, "balance"⟩ Lang.fr defaultResponses =
      some balanceFr := by
  have hq : ((5 : ℚ)/18) = mkRat 5 18 := by
    rw [Rat.mkRat_eq_div]
    norm_num
  rw [hq]
  exact ⟨by decide, by decide⟩

/-- Claim C8, counterexample: the catalog-driven `classify` does not trim
the message.  With the whitespace-carrying keyword `" solde"` and the
message `" solde"`, the code matches (confidence `1`), while the spec's
trimmed normalization would not match at all. -/
theorem trim_divergence_counterexample :
    classify " solde" [wsEntry] ≠ classifySpecTrimmed " solde" [wsEntry] ∧
      (classify " solde" [wsEntry]).intent = "ws_intent" ∧
      (classifySpecTrimmed " solde" [wsEntry]).intent = "unknown" := by
  decide

/-- Claim C8, amended: the catalog-driven `classify` matches on the
lower-cased (but NOT trimmed) message, lower-casing both the message and
each keyword (only the fixed-table `MobilisChatBot.analyzeIntent` variant
also trims); in particular `"SOLDE please"` matches the keyword `"solde"`
in both variants. -/
theorem classify_lowercase_matching :
    (∀ (msg : String) (cat : List BotResponse),
        classify msg cat = classifySpecLowerOnly msg cat) ∧
    classify "SOLDE please" defaultResponses = ⟨"balance_inquiry", 5/12, "balance"⟩ ∧
    MobilisChatBot.analyzeIntent "SOLDE please" = ⟨"balance", 5/12, "balance"⟩ := by
  have hq : ((5 : ℚ)/12) = mkRat 5 12 := by
    rw [Rat.mkRat_eq_div]
    norm_num
  rw [hq]
  exact ⟨fun msg cat => rfl, by decide, by decide⟩

/-- Claim C9: `analyzeIntent` never mutates the storage it reads — the
storage threaded through the call comes back unchanged (so every catalog
entry is unchanged), and a repeated call on the resulting storage returns
the identical `ServiceIntent`. -/
theorem analyzeIntent_preserves_storage :
    ∀ (text : String) (st : MemStorage),
      (analyzeIntent text st).2 = st ∧
      (analyzeIntent text ((analyzeIntent text st).2)).1 = (analyzeIntent text st).1 :=
  fun _ _ => ⟨rfl, rfl⟩

/-- Claim C10, counterexample: against a catalog whose active entry is
literally named `"unknown"`, `classify` can return the intent `"unknown"`
with a non-zero confidence, so "intent is unknown precisely when confidence
is 0" fails as stated. -/
theorem unknown_name_counterexample :
    (classify "hi" [unknownNamedEntry]).intent = "unknown" ∧
      (classify "hi" [unknownNamedEntry]).confidence ≠ 0 ∧
      (classify "hi" [unknownNamedEntry]).confidence = 1 := by
  decide

/-- Claim C10, amended: `classify` returns either exactly the unknown
default or a result with strictly positive confidence whose intent and
category come from an active catalog entry with a matching non-empty
keyword (an empty-string keyword can never cause its entry to be selected);
and provided no active entry is itself named `"unknown"`, the returned
intent is `"unknown"` precisely when the returned confidence is `0`. -/
theorem classify_result_invariant (msg : String) (cat : List BotResponse) :
    (classify msg cat = ⟨"unknown", 0, "general"⟩ ∨
      (0 < (classify msg cat).confidence ∧
        ∃ e, e ∈ cat ∧ e.isActive = true ∧
          ∃ kw, kw ∈ e.keywords ∧ kwMatches msg kw = true ∧ kw ≠ "" ∧
            classify msg cat = ⟨e.intent, kwConfidence msg kw, e.category⟩)) ∧
    ((∀ e ∈ cat, e.isActive = true → e.intent ≠ "unknown") →
      ((classify msg cat).intent = "unknown" ↔ (classify msg cat).confidence = 0)) := by
  have hmain : classify msg cat = ⟨"unknown", 0, "general"⟩ ∨
      (0 < (classify msg cat).confidence ∧
        ∃ e, e ∈ cat ∧ e.isActive = true ∧
          ∃ kw, kw ∈ e.keywords ∧ kwMatches msg kw = true ∧ kw ≠ "" ∧
            classify msg cat = ⟨e.intent, kwConfidence msg kw, e.category⟩) := by
    rcases entryfold_invariant msg (cat.filter (fun r => r.isActive))
        ⟨"unknown", 0, "general"⟩ with hdef | ⟨e, hef, kw, hkw, hm, heq, hlt⟩
    · left
      rw [classify_eq_core]
      unfold analyzeIntentCore
      exact hdef
    · right
      have hclassify : classify msg cat = ⟨e.intent, kwConfidence msg kw, e.category⟩ := by
        rw [classify_eq_core]
        unfold analyzeIntentCore
        exact heq
      have hpos : 0 < kwConfidence msg kw := hlt
      obtain ⟨hecat, hact⟩ := List.mem_filter.mp hef
      have hkwne : kw ≠ "" := by
        intro hkweq
        rw [hkweq, kwConfidence_empty_kw] at hpos
        exact lt_irrefl 0 hpos
      exact ⟨by rw [hclassify]; exact hpos,
        e, hecat, by simpa using hact, kw, hkw, hm, hkwne, hclassify⟩
  refine ⟨hmain, fun hno => ?_⟩
  rcases hmain with hdef | ⟨hpos, e, hecat, hact, kw, hkw, hm, hkwne, heq⟩
  · rw [hdef]
    simp
  · constructor
    · intro hintent
      exfalso
      rw [heq] at hintent
      exact hno e hecat hact hintent
    · intro hconf
      exfalso
      rw [hconf] at hpos
      exact lt_irrefl 0 hpos

/-- Claim C10, witness: the amended biconditional applied to the message
`"hello"` and the default catalog (no entry there is named `"unknown"`);
`"hello"` matches the greeting entry with confidence `1`, so both sides of
the biconditional are false. -/
theorem classify_result_invariant_witness :
    (classify "hello" defaultResponses).intent = "unknown" ↔
      (classify "hello" defaultResponses).confidence = 0 :=
  (classify_result_invariant "hello" defaultResponses).2 (by decide)
